import Mathlib

/-!
Verification of the rope text-buffer implementation (`src/lib/rope.ts` and
its second revision `src/unnamed/part_000`).

Text is modelled as `List Char` (JS strings, indexed by code units).
Positions and JS numeric fields are modelled as `Int`.
A JS value that may be `undefined` (an absent child, an element of the
fragment list) is modelled as an `Option`.
A computation that can throw a `TypeError` (reading `.kind` or `.length`
of `undefined`, as `getSize(undefined)` or `splitHelper(undefined)` would)
is modelled as an `Option` result, with `none` for the thrown exception.

The two source revisions are identical except for the leaf case of
`splitHelper`; both are embedded (`splitHelper` for `src/unnamed/part_000`,
`splitHelperLib` for `src/lib/rope.ts`).  `insert` is textually identical in
the two revisions; `deleteRange` is implemented only in `src/unnamed/part_000`
(`src/lib/rope.ts` leaves it as a TODO stub), so the embedded `deleteRange`
follows `src/unnamed/part_000`.
-/

namespace RopeModel

/-- The immutable rope node: `RopeLeaf` holds text, `RopeBranch` holds two
possibly-absent children and the `cachedSize` computed by its constructor.
(`IRope` in the source.) -/
inductive Rope where
  | leaf (text : List Char)
  | branch (left right : Option Rope) (cachedSize : Nat)

/-- Source `RopeLeaf.size` / `RopeBranch.size`: a leaf reports its text length, a
branch reports its `cachedSize` field (O(1), no recursion). -/
def Rope.size : Rope → Nat
  | .leaf t => t.length
  | .branch _ _ s => s

/-- Source `left ? left.size() : 0` — the size contribution of a possibly-absent
child. -/
def osize : Option Rope → Nat
  | none => 0
  | some r => r.size

/-- The `RopeBranch` constructor: stores the children and computes
`cachedSize = (left ? left.size() : 0) + (right ? right.size() : 0)`. -/
def mkBranch (l r : Option Rope) : Rope := .branch l r (osize l + osize r)

mutual
/-- Source `toString()`: depth-first left-to-right concatenation of leaf texts. -/
def Rope.toString : Rope → List Char
  | .leaf t => t
  | .branch l r _ => ostr l ++ ostr r
/-- Source `this.left ? this.left.toString() : ''` for a possibly-absent child. -/
def ostr : Option Rope → List Char
  | none => []
  | some r => r.toString
end

mutual
/-- Source `height()`: leaves have height 1, a branch is 1 + max of child heights. -/
def Rope.height : Rope → Nat
  | .leaf _ => 1
  | .branch l r _ => 1 + max (oheight l) (oheight r)
/-- Source `leftHeight()` / `rightHeight()`: an absent child has height 0. -/
def oheight : Option Rope → Nat
  | none => 0
  | some r => r.height
end

mutual
/-- Source `isBalanced()`: a leaf is balanced; a branch is balanced iff both
children are balanced (absent children count as balanced) and the child
heights differ by less than 2 (`Math.abs(leftHeight - rightHeight) < 2`). -/
def Rope.isBalanced : Rope → Bool
  | .leaf _ => true
  | .branch l r _ =>
      obal l && obal r && decide (((oheight l : Int) - (oheight r : Int)).natAbs < 2)
/-- Source `this.left ? this.left.isBalanced() : true` for a possibly-absent child. -/
def obal : Option Rope → Bool
  | none => true
  | some r => r.isBalanced
end

/-- Source `MapRepresentation`: the plain-object staging form used by `splitAt`.
A `MapLeaf` holds text; a `MapBranch` holds possibly-absent children and a
mutable numeric `size` field. -/
inductive MapRep where
  | leaf (text : List Char)
  | branch (left right : Option MapRep) (size : Int)

/-- Source `getSize(map)`: a leaf reports its text length, a branch reports its
stored `size` field. -/
def getSize : MapRep → Int
  | .leaf t => (t.length : Int)
  | .branch _ _ s => s

mutual
/-- Source `toMap()`: a leaf maps to a `MapLeaf`; a branch maps to a `MapBranch`
whose `size` is the branch's `cachedSize` and whose child fields are present
exactly when the children are. -/
def Rope.toMap : Rope → MapRep
  | .leaf t => .leaf t
  | .branch l r s => .branch (otoMap l) (otoMap r) (s : Int)
def otoMap : Option Rope → Option MapRep
  | none => none
  | some r => some r.toMap
end

mutual
/-- Source `createRopeFromMap(map)`: rebuilds a rope from a map.  The stored map
`size` is ignored: the `RopeBranch` constructor recomputes `cachedSize`
from the children. -/
def createRopeFromMap : MapRep → Rope
  | .leaf t => .leaf t
  | .branch l r _ => mkBranch (ocreate l) (ocreate r)
def ocreate : Option MapRep → Option Rope
  | none => none
  | some m => some (createRopeFromMap m)
end

mutual
/-- The flattened text of a map (the depth-first leaf concatenation). -/
def mflat : MapRep → List Char
  | .leaf t => t
  | .branch l r _ => oflat l ++ oflat r
def oflat : Option MapRep → List Char
  | none => []
  | some m => mflat m
end

/-- Source `splitHelper` as in `src/unnamed/part_000` (lines 137-182).  The result
is the rebuilt left map together with the fragments pushed onto `list`, in
push order; `none` models a thrown `TypeError` (`getSize(undefined)` when a
needed child is absent, or recursing into an absent child).  Note that in
the two recursive branch cases the rebuilt node's `size` field is set to
`getSize` of the recursive answer alone, exactly as in the source. -/
def splitHelper : MapRep → Int → Option (MapRep × List (Option MapRep))
  | .leaf t, position =>
      some (.leaf (t.take (position + 1).toNat),
            [some (.leaf (t.drop (position + 1).toNat))])
  | .branch left right size, position =>
      match left with
      | none => none
      | some l =>
        if getSize l = position + 1 then
          match right with
          | none => none
          | some r => some (.branch (some l) none (size - getSize r), [some r])
        else if getSize l > position + 1 then
          match splitHelper l position with
          | none => none
          | some (ans, pushes) =>
              some (.branch (some ans) none (getSize ans), pushes ++ [right])
        else
          match right with
          | none => none
          | some r =>
            match splitHelper r (position - getSize l) with
            | none => none
            | some (ans, pushes) =>
                some (.branch (some l) (some ans) (getSize ans), pushes)

/-- Source `splitHelper` as in `src/lib/rope.ts` (lines 136-181): identical to the
other revision except in the leaf case, which wraps the kept left fragment
in a `MapBranch` with an absent right child and `size` equal to the kept
fragment's length. -/
def splitHelperLib : MapRep → Int → Option (MapRep × List (Option MapRep))
  | .leaf t, position =>
      some (.branch (some (.leaf (t.take (position + 1).toNat))) none
              ((t.take (position + 1).toNat).length : Int),
            [some (.leaf (t.drop (position + 1).toNat))])
  | .branch left right size, position =>
      match left with
      | none => none
      | some l =>
        if getSize l = position + 1 then
          match right with
          | none => none
          | some r => some (.branch (some l) none (size - getSize r), [some r])
        else if getSize l > position + 1 then
          match splitHelperLib l position with
          | none => none
          | some (ans, pushes) =>
              some (.branch (some ans) none (getSize ans), pushes ++ [right])
        else
          match right with
          | none => none
          | some r =>
            match splitHelperLib r (position - getSize l) with
            | none => none
            | some (ans, pushes) =>
                some (.branch (some l) (some ans) (getSize ans), pushes)

/-- Source `concatenateTwoMaps(map1, map2)`: a fresh `MapBranch` with both children
present and `size = getSize(map1) + getSize(map2)`. -/
def concatenateTwoMaps (m1 m2 : MapRep) : MapRep :=
  .branch (some m1) (some m2) (getSize m1 + getSize m2)

/-- The `for` loop of `concatenateMapList`: folds `concatenateTwoMaps` over
the remaining elements.  `concatenateTwoMaps` applied to an `undefined`
operand throws (`getSize(undefined)`), modelled as the outer `none`. -/
def concatenateLoop : Option MapRep → List (Option MapRep) → Option (Option MapRep)
  | acc, [] => some acc
  | some a, some b :: rest => concatenateLoop (some (concatenateTwoMaps a b)) rest
  | _, _ :: _ => none

/-- Source `concatenateMapList(list)`: `list[0]` folded with the loop.  On an empty
list, `list[0]` is `undefined` and is returned as such (inner `none`); the
outer `none` models a thrown `TypeError` inside the loop. -/
def concatenateMapList : List (Option MapRep) → Option (Option MapRep)
  | [] => some none
  | x :: rest => concatenateLoop x rest

/-- Source `splitAt(rope, position)` (identical in both revisions up to the choice
of helper): convert to a map, run the helper, rebuild the left rope from the
returned map and the right rope from the concatenated fragment list.
`none` models a thrown `TypeError` anywhere along the way (including
`createRopeFromMap(undefined)` when the fragment list concatenates to
`undefined`). -/
def splitAt (rope : Rope) (position : Int) : Option (Rope × Rope) :=
  match splitHelper rope.toMap position with
  | none => none
  | some (leftMap, list) =>
    match concatenateMapList list with
    | some (some rightMap) => some (createRopeFromMap leftMap, createRopeFromMap rightMap)
    | _ => none

/-- Source `splitAt` of `src/lib/rope.ts`, using that revision's leaf case. -/
def splitAtLib (rope : Rope) (position : Int) : Option (Rope × Rope) :=
  match splitHelperLib rope.toMap position with
  | none => none
  | some (leftMap, list) =>
    match concatenateMapList list with
    | some (some rightMap) => some (createRopeFromMap leftMap, createRopeFromMap rightMap)
    | _ => none

/-- Source `insert(rope, text, location)` (textually identical in both revisions):
at `location === 0`, prepend by concatenating a leaf for `text` with the
rope; otherwise split at `location - 1` and concatenate
`[left, Leaf(text), right]`. -/
def insert (rope : Rope) (text : List Char) (location : Int) : Option Rope :=
  let textRope : Rope := .leaf text
  if location = 0 then
    some (createRopeFromMap (concatenateTwoMaps textRope.toMap rope.toMap))
  else
    match splitAt rope (location - 1) with
    | none => none
    | some (left, right) =>
      match concatenateMapList [some left.toMap, some textRope.toMap, some right.toMap] with
      | some (some m) => some (createRopeFromMap m)
      | _ => none

/-- Source `deleteRange(rope, start, end)` as in `src/unnamed/part_000` (lines
227-235): split at `start - 1`, split the right part at
`end - getSize(leftStartSplit.toMap()) - 1`, and concatenate the outer
pieces, discarding `leftEndSplit`.  (`src/lib/rope.ts` leaves this
unimplemented.) -/
def deleteRange (rope : Rope) (start fin : Int) : Option Rope :=
  match splitAt rope (start - 1) with
  | none => none
  | some (leftStartSplit, rightStartSplit) =>
    match splitAt rightStartSplit (fin - getSize leftStartSplit.toMap - 1) with
    | none => none
    | some (_leftEndSplit, rightEndSplit) =>
      match concatenateMapList [some leftStartSplit.toMap, some rightEndSplit.toMap] with
      | some (some m) => some (createRopeFromMap m)
      | _ => none

/-! ### Structural predicates -/

mutual
/-- A rope is *full* when every branch in it has both children present.
Split crashes (`getSize(undefined)` / recursing into `undefined`) can only
arise at a branch with an absent child, so fullness is the totality
condition for `splitAt`. -/
def Rope.full : Rope → Bool
  | .leaf _ => true
  | .branch l r _ => ofullR l && ofullR r
def ofullR : Option Rope → Bool
  | none => false
  | some r => r.full
end

mutual
/-- The size invariant: every branch's `cachedSize` equals the sum of its
children's sizes. -/
def Rope.wellSized : Rope → Bool
  | .leaf _ => true
  | .branch l r s => decide (s = osize l + osize r) && owell l && owell r
def owell : Option Rope → Bool
  | none => true
  | some r => r.wellSized
end

mutual
/-- A map is *full* when every branch in it has both children present. -/
def mfull : MapRep → Bool
  | .leaf _ => true
  | .branch l r _ => ofull l && ofull r
def ofull : Option MapRep → Bool
  | none => false
  | some m => mfull m
end

mutual
/-- A map is *true-sized* when every branch's stored `size` field equals the
length of its flattened text. -/
def msized : MapRep → Bool
  | .leaf _ => true
  | .branch l r s =>
      decide (s = ((oflat l).length + (oflat r).length : Int)) && osized l && osized r
def osized : Option MapRep → Bool
  | none => true
  | some m => msized m
end

/-- The text reconstructed from the fragment list collected by
`splitHelper`, in push order. -/
def pushJoin (l : List (Option MapRep)) : List Char := (l.map oflat).flatten

/-- A well-behaved fragment list entry: defined (not `undefined`), full and
true-sized. -/
def goodPush (x : Option MapRep) : Prop :=
  ∃ y, x = some y ∧ mfull y = true ∧ msized y = true

mutual
/-- Predicate `BalancedSpec n` is the spec's balance property, stated in its own
words: a node is balanced iff it is a Leaf, or it is a Branch whose
children are both balanced (an absent child counting as balanced) and whose
children's heights (an absent child contributing height 0) differ by
strictly less than 2. -/
inductive BalancedSpec : Rope → Prop where
  | leaf : ∀ t, BalancedSpec (Rope.leaf t)
  | branch : ∀ l r s, BalancedChild l → BalancedChild r →
      ((oheight l : Int) - (oheight r : Int)).natAbs < 2 →
      BalancedSpec (Rope.branch l r s)
/-- An absent child counts as balanced; a present child must be balanced. -/
inductive BalancedChild : Option Rope → Prop where
  | none : BalancedChild none
  | some : ∀ x, BalancedSpec x → BalancedChild (some x)
end

/-- Observational agreement of two maps: same flattened text and same
`getSize`. -/
def RelM (m1 m2 : MapRep) : Prop := mflat m1 = mflat m2 ∧ getSize m1 = getSize m2

/-- Observational agreement of two possibly-`undefined` maps. -/
def RelO : Option MapRep → Option MapRep → Prop
  | none, none => True
  | some a, some b => RelM a b
  | _, _ => False

/-- Observational agreement of two `splitHelper` results: both throw, or
both return maps with agreeing left results and pointwise agreeing fragment
lists. -/
def RelSplit : Option (MapRep × List (Option MapRep)) →
    Option (MapRep × List (Option MapRep)) → Prop
  | none, none => True
  | some (r1, l1), some (r2, l2) => RelM r1 r2 ∧ List.Forall₂ RelO l1 l2
  | _, _ => False

/-- Observational agreement of two `concatenateMapList` results. -/
def RelConc : Option (Option MapRep) → Option (Option MapRep) → Prop
  | none, none => True
  | some none, some none => True
  | some (some a), some (some b) => RelM a b
  | _, _ => False

/-! ### Basic lemmas -/

mutual
theorem create_toString : ∀ m : MapRep, (createRopeFromMap m).toString = mflat m
  | .leaf _ => rfl
  | .branch l r _ => by
      rw [createRopeFromMap, mflat, mkBranch, Rope.toString, ocreate_toString l,
        ocreate_toString r]
theorem ocreate_toString : ∀ o : Option MapRep, ostr (ocreate o) = oflat o
  | none => rfl
  | some m => by rw [ocreate, ostr, oflat, create_toString m]
end

mutual
theorem create_wellSized : ∀ m : MapRep, (createRopeFromMap m).wellSized = true
  | .leaf _ => rfl
  | .branch l r _ => by
      rw [createRopeFromMap, mkBranch, Rope.wellSized]
      simp [ocreate_wellSized l, ocreate_wellSized r]
theorem ocreate_wellSized : ∀ o : Option MapRep, owell (ocreate o) = true
  | none => rfl
  | some m => by rw [ocreate, owell, create_wellSized m]
end

mutual
theorem wellSized_size : ∀ r : Rope, r.wellSized = true → r.size = r.toString.length
  | .leaf _ => fun _ => rfl
  | .branch l r _ => by
      rw [Rope.wellSized, Rope.size, Rope.toString]
      intro h
      simp only [Bool.and_eq_true, decide_eq_true_eq] at h
      rw [List.length_append, ← owell_size l h.1.2, ← owell_size r h.2]
      exact h.1.1
theorem owell_size : ∀ o : Option Rope, owell o = true → osize o = (ostr o).length
  | none => fun _ => rfl
  | some r => by rw [owell, osize, ostr]; exact wellSized_size r
end

mutual
theorem create_full : ∀ m : MapRep, mfull m = true → (createRopeFromMap m).full = true
  | .leaf _ => fun _ => rfl
  | .branch l r _ => by
      rw [mfull, createRopeFromMap, mkBranch, Rope.full]
      simp only [Bool.and_eq_true]
      exact fun h => ⟨ocreate_full l h.1, ocreate_full r h.2⟩
theorem ocreate_full : ∀ o : Option MapRep, ofull o = true → ofullR (ocreate o) = true
  | none => fun h => h
  | some m => by rw [ofull, ocreate, ofullR]; exact create_full m
end

mutual
theorem toMap_flat : ∀ r : Rope, mflat r.toMap = r.toString
  | .leaf _ => rfl
  | .branch l r _ => by
      rw [Rope.toMap, Rope.toString, mflat, otoMap_flat l, otoMap_flat r]
theorem otoMap_flat : ∀ o : Option Rope, oflat (otoMap o) = ostr o
  | none => rfl
  | some r => by rw [otoMap, oflat, ostr, toMap_flat r]
end

mutual
theorem toMap_full : ∀ r : Rope, r.full = true → mfull r.toMap = true
  | .leaf _ => fun _ => rfl
  | .branch l r _ => by
      rw [Rope.full, Rope.toMap, mfull]
      simp only [Bool.and_eq_true]
      exact fun h => ⟨otoMap_full l h.1, otoMap_full r h.2⟩
theorem otoMap_full : ∀ o : Option Rope, ofullR o = true → ofull (otoMap o) = true
  | none => fun h => h
  | some r => by rw [ofullR, otoMap, ofull]; exact toMap_full r
end

mutual
theorem toMap_msized : ∀ r : Rope, r.wellSized = true → msized r.toMap = true
  | .leaf _ => fun _ => rfl
  | .branch l r _ => by
      rw [Rope.wellSized, Rope.toMap, msized]
      simp only [Bool.and_eq_true, decide_eq_true_eq]
      intro h
      refine ⟨⟨?_, otoMap_msized l h.1.2⟩, otoMap_msized r h.2⟩
      rw [otoMap_flat l, otoMap_flat r, ← owell_size l h.1.2, ← owell_size r h.2]
      exact congrArg (Int.ofNat) h.1.1
theorem otoMap_msized : ∀ o : Option Rope, owell o = true → osized (otoMap o) = true
  | none => fun _ => rfl
  | some r => by rw [owell, otoMap, osized]; exact toMap_msized r
end

theorem getSize_msized : ∀ m : MapRep, msized m = true → getSize m = ((mflat m).length : Int)
  | .leaf _ => fun _ => rfl
  | .branch l r s => by
      rw [msized, getSize, mflat]
      simp only [Bool.and_eq_true, decide_eq_true_eq]
      intro h
      rw [List.length_append]
      exact_mod_cast h.1.1

theorem create_size (m : MapRep) : (createRopeFromMap m).size = (mflat m).length := by
  rw [wellSized_size _ (create_wellSized m), create_toString m]

theorem getSize_toMap : ∀ r : Rope, getSize r.toMap = (r.size : Int)
  | .leaf _ => rfl
  | .branch _ _ _ => rfl

theorem pushJoin_append (a b : List (Option MapRep)) :
    pushJoin (a ++ b) = pushJoin a ++ pushJoin b := by
  simp [pushJoin]

theorem pushJoin_single (x : Option MapRep) : pushJoin [x] = oflat x := by
  simp [pushJoin]

/-! ### The split recursion

On a full, true-sized map, `splitHelper` never throws, its left result
flattens to the first `(position+1)` characters, and the collected
fragments concatenate (in push order) to the remaining characters.  This
holds for every integer `position`: out-of-range positions are absorbed by
the clamping of `substring` at the leaves. -/

theorem splitHelper_spec : ∀ (m : MapRep) (pos : Int), mfull m = true → msized m = true →
    ∃ res pushes, splitHelper m pos = some (res, pushes) ∧
      mflat res = (mflat m).take (pos + 1).toNat ∧
      pushJoin pushes = (mflat m).drop (pos + 1).toNat ∧
      pushes ≠ [] ∧ ∀ x ∈ pushes, goodPush x
  | .leaf t, pos => fun _ _ => by
      refine ⟨_, _, rfl, rfl, ?_, by simp, ?_⟩
      · rw [pushJoin_single]; rfl
      · intro x hx
        rw [List.mem_singleton] at hx
        exact ⟨_, hx, rfl, rfl⟩
  | .branch none r s, pos => fun hf _ => by
      rw [mfull, ofull] at hf
      simp at hf
  | .branch (some a) none s, pos => fun hf _ => by
      rw [mfull] at hf
      simp [ofull] at hf
  | .branch (some a) (some b) s, pos => fun hf hs => by
      rw [mfull, Bool.and_eq_true, ofull, ofull] at hf
      obtain ⟨hfa, hfb⟩ := hf
      rw [msized, Bool.and_eq_true, Bool.and_eq_true, decide_eq_true_eq, osized, osized] at hs
      obtain ⟨⟨hsize, hsa⟩, hsb⟩ := hs
      have hga : getSize a = ((mflat a).length : Int) := getSize_msized a hsa
      have hgb : getSize b = ((mflat b).length : Int) := getSize_msized b hsb
      rw [oflat, oflat] at hsize
      simp only [splitHelper]
      by_cases hA : getSize a = pos + 1
      · rw [if_pos hA]
        rw [hga] at hA
        have hn : (pos + 1).toNat = (mflat a).length := by omega
        refine ⟨_, _, rfl, ?_, ?_, by simp, ?_⟩
        · rw [mflat, oflat, oflat, List.append_nil, mflat, oflat, oflat, hn]
          exact (List.take_left ..).symm
        · rw [pushJoin_single, oflat, mflat, oflat, oflat, hn]
          exact (List.drop_left ..).symm
        · intro x hx
          rw [List.mem_singleton] at hx
          exact ⟨_, hx, hfb, hsb⟩
      · rw [if_neg hA]
        by_cases hB : getSize a > pos + 1
        · rw [if_pos hB]
          obtain ⟨resA, pushesA, heq, htake, hdrop, -, hgood⟩ :=
            splitHelper_spec a pos hfa hsa
          rw [heq]
          rw [hga] at hB
          have hn : (pos + 1).toNat ≤ (mflat a).length := by omega
          refine ⟨_, _, rfl, ?_, ?_, by simp, ?_⟩
          · rw [mflat, oflat, oflat, List.append_nil, htake, mflat, oflat, oflat,
              List.take_append_eq_append_take, Nat.sub_eq_zero_of_le hn,
              List.take_zero, List.append_nil]
          · rw [pushJoin_append, pushJoin_single, oflat, hdrop, mflat, oflat, oflat,
              List.drop_append_eq_append_drop, Nat.sub_eq_zero_of_le hn, List.drop_zero]
          · intro x hx
            rw [List.mem_append, List.mem_singleton] at hx
            rcases hx with hx | hx
            · exact hgood x hx
            · exact ⟨_, hx, hfb, hsb⟩
        · rw [if_neg hB]
          obtain ⟨resB, pushesB, heq, htake, hdrop, hne, hgood⟩ :=
            splitHelper_spec b (pos - getSize a) hfb hsb
          rw [heq]
          rw [hga] at hB hA
          have hlt : ((mflat a).length : Int) < pos + 1 := by omega
          have hn : (pos + 1).toNat = (mflat a).length + (pos - getSize a + 1).toNat := by
            rw [hga]; omega
          have hfa_le : (mflat a).length ≤ (pos + 1).toNat := by omega
          refine ⟨_, _, rfl, ?_, ?_, hne, hgood⟩
          · rw [mflat, oflat, oflat, htake, mflat, oflat, oflat,
              List.take_append_eq_append_take, List.take_of_length_le hfa_le, hn,
              Nat.add_sub_cancel_left]
          · rw [hdrop, mflat, oflat, oflat, List.drop_append_eq_append_drop,
              List.drop_of_length_le hfa_le, hn, Nat.add_sub_cancel_left,
              List.nil_append]

/-! ### Concatenation of the fragment list -/

theorem concatenateLoop_spec : ∀ (rest : List (Option MapRep)) (acc : MapRep),
    mfull acc = true → msized acc = true → (∀ x ∈ rest, goodPush x) →
    ∃ rm, concatenateLoop (some acc) rest = some (some rm) ∧
      mflat rm = mflat acc ++ pushJoin rest ∧ mfull rm = true ∧ msized rm = true
  | [], acc => fun hf hs _ => ⟨acc, rfl, by simp [pushJoin], hf, hs⟩
  | x :: rest, acc => fun hf hs hgood => by
      obtain ⟨b, rfl, hfb, hsb⟩ := hgood x (List.mem_cons_self x rest)
      have hfc : mfull (concatenateTwoMaps acc b) = true := by
        rw [concatenateTwoMaps, mfull, ofull, ofull, hf, hfb, Bool.and_true]
      have hsc : msized (concatenateTwoMaps acc b) = true := by
        rw [concatenateTwoMaps, msized, osized, osized, hs, hsb]
        simp only [oflat, Bool.and_true, decide_eq_true_eq]
        rw [getSize_msized acc hs, getSize_msized b hsb]
      obtain ⟨rm, heq, hflat, hfm, hsm⟩ :=
        concatenateLoop_spec rest (concatenateTwoMaps acc b) hfc hsc
          (fun y hy => hgood y (List.mem_cons_of_mem _ hy))
      refine ⟨rm, ?_, ?_, hfm, hsm⟩
      · exact heq
      · rw [hflat, concatenateTwoMaps, mflat, oflat, oflat]
        simp [pushJoin, oflat]
theorem concatenateMapList_spec (list : List (Option MapRep))
    (hne : list ≠ []) (hgood : ∀ x ∈ list, goodPush x) :
    ∃ rm, concatenateMapList list = some (some rm) ∧
      mflat rm = pushJoin list ∧ mfull rm = true ∧ msized rm = true := by
  match list with
  | [] => exact absurd rfl hne
  | x :: rest =>
    obtain ⟨a, rfl, hfa, hsa⟩ := hgood x (List.mem_cons_self x rest)
    obtain ⟨rm, heq, hflat, hfm, hsm⟩ :=
      concatenateLoop_spec rest a hfa hsa (fun y hy => hgood y (List.mem_cons_of_mem _ hy))
    refine ⟨rm, heq, ?_, hfm, hsm⟩
    rw [hflat]
    simp [pushJoin, oflat]

/-! ### The `splitAt` wrapper -/

theorem splitAt_spec (r : Rope) (pos : Int)
    (hf : r.full = true) (hw : r.wellSized = true) :
    ∃ l r2, splitAt r pos = some (l, r2) ∧
      l.toString = r.toString.take (pos + 1).toNat ∧
      r2.toString = r.toString.drop (pos + 1).toNat ∧
      l.wellSized = true ∧ r2.wellSized = true ∧ r2.full = true ∧
      l.size = min (pos + 1).toNat r.toString.length ∧
      r2.size = r.toString.length - (pos + 1).toNat := by
  obtain ⟨res, pushes, heq, htake, hdrop, hne, hgood⟩ :=
    splitHelper_spec r.toMap pos (toMap_full r hf) (toMap_msized r hw)
  obtain ⟨rm, heqc, hflat, hfm, -⟩ := concatenateMapList_spec pushes hne hgood
  refine ⟨createRopeFromMap res, createRopeFromMap rm, ?_, ?_, ?_, create_wellSized res,
    create_wellSized rm, ?_, ?_, ?_⟩
  · simp only [splitAt, heq, heqc]
  · rw [create_toString, htake, toMap_flat]
  · rw [create_toString, hflat, hdrop, toMap_flat]
  · exact create_full rm hfm
  · rw [wellSized_size _ (create_wellSized res), create_toString, htake, toMap_flat,
      List.length_take]
  · rw [wellSized_size _ (create_wellSized rm), create_toString, hflat, hdrop, toMap_flat,
      List.length_drop]

/-! ### Small computation lemmas -/

theorem concatenateMapList_two (a b : MapRep) :
    concatenateMapList [some a, some b] = some (some (concatenateTwoMaps a b)) := rfl

theorem concatenateMapList_three (a b c : MapRep) :
    concatenateMapList [some a, some b, some c] =
      some (some (concatenateTwoMaps (concatenateTwoMaps a b) c)) := rfl

theorem mflat_concatenateTwoMaps (a b : MapRep) :
    mflat (concatenateTwoMaps a b) = mflat a ++ mflat b := rfl

/-- Every successful `splitAt` returns two ropes rebuilt by
`createRopeFromMap`. -/
theorem splitAt_some_shape (r : Rope) (p : Int) (a b : Rope)
    (h : splitAt r p = some (a, b)) :
    ∃ lm rm, a = createRopeFromMap lm ∧ b = createRopeFromMap rm := by
  rw [splitAt] at h
  split at h
  · exact absurd h (by simp)
  · split at h
    · rw [Option.some_inj, Prod.mk.injEq] at h
      exact ⟨_, _, h.1.symm, h.2.symm⟩
    · exact absurd h (by simp)

/-- Every successful `insert` returns a rope rebuilt by `createRopeFromMap`. -/
theorem insert_some_shape (r : Rope) (t : List Char) (loc : Int) (a : Rope)
    (h : insert r t loc = some a) : ∃ m, a = createRopeFromMap m := by
  rw [insert] at h
  split at h
  · exact ⟨_, (Option.some_inj.mp h).symm⟩
  · split at h
    · exact absurd h (by simp)
    · split at h
      · exact ⟨_, (Option.some_inj.mp h).symm⟩
      · exact absurd h (by simp)

/-- Every successful `deleteRange` returns a rope rebuilt by
`createRopeFromMap`. -/
theorem deleteRange_some_shape (r : Rope) (s e : Int) (a : Rope)
    (h : deleteRange r s e = some a) : ∃ m, a = createRopeFromMap m := by
  rw [deleteRange] at h
  split at h
  · exact absurd h (by simp)
  · split at h
    · exact absurd h (by simp)
    · split at h
      · exact ⟨_, (Option.some_inj.mp h).symm⟩
      · exact absurd h (by simp)

/-! ### Claim C1: the split round trip -/

/-- C1 (amended): for every rope whose branches all have both children
present and whose cached sizes are correct, and every valid 0-based
position, `splitAt` succeeds and the flattened left result followed by the
flattened right result equals the flattened input: split is lossless and
order-preserving. -/
theorem splitAt_roundTrip (r : Rope) (position : Int)
    (hf : r.full = true) (hw : r.wellSized = true)
    (h0 : 0 ≤ position) (hlt : position < (r.size : Int)) :
    ∃ l r2, splitAt r position = some (l, r2) ∧
      l.toString ++ r2.toString = r.toString := by
  obtain ⟨l, r2, heq, htake, hdrop, -, -, -, -, -⟩ := splitAt_spec r position hf hw
  exact ⟨l, r2, heq, by rw [htake, hdrop, List.take_append_drop]⟩

/-- Witness for C1 at `Branch(Leaf "ab", Leaf "cd")`, position 2. -/
theorem splitAt_roundTrip_witness :
    ∃ l r2,
      splitAt (mkBranch (some (.leaf ['a','b'])) (some (.leaf ['c','d']))) 2 = some (l, r2) ∧
      l.toString ++ r2.toString =
        (mkBranch (some (.leaf ['a','b'])) (some (.leaf ['c','d']))).toString :=
  splitAt_roundTrip _ 2 (by decide) (by decide) (by decide) (by decide)

/-- C1 counterexample: the claim as stated quantifies over *every* rope.
On the rope `Branch(Leaf "ab", ∅)` (a branch with an absent right child,
a shape the data model allows and split itself produces), splitting at the
valid position 1 throws (`getSize(undefined)`), so no pair is returned at
all. -/
theorem splitAt_roundTrip_counterexample :
    0 ≤ (1 : Int) ∧
    (1 : Int) < ((Rope.branch (some (.leaf ['a','b'])) none 2).size : Int) ∧
    splitAt (Rope.branch (some (.leaf ['a','b'])) none 2) 1 = none :=
  ⟨by decide, by decide, rfl⟩

/-! ### Claim C2: insert correctness -/

/-- C2 (amended): for every rope whose branches all have both children
present and whose cached sizes are correct, every text and every location
with `0 ≤ location ≤ size`, `insert` succeeds and flattens to the plain
sequence splice of the text at the location. -/
theorem insert_spec (r : Rope) (t : List Char) (location : Int)
    (hf : r.full = true) (hw : r.wellSized = true)
    (h0 : 0 ≤ location) (hle : location ≤ (r.size : Int)) :
    ∃ r2, insert r t location = some r2 ∧
      r2.toString = r.toString.take location.toNat ++ t ++ r.toString.drop location.toNat := by
  by_cases h0' : location = 0
  · subst h0'
    refine ⟨createRopeFromMap (concatenateTwoMaps (Rope.leaf t).toMap r.toMap), ?_, ?_⟩
    · simp [insert]
    · rw [create_toString, mflat_concatenateTwoMaps, toMap_flat, toMap_flat]
      simp [Rope.toString]
  · obtain ⟨l, r2', heq, htake, hdrop, -, -, -, -, -⟩ := splitAt_spec r (location - 1) hf hw
    have harith : location - 1 + 1 = location := by ring
    rw [harith] at htake hdrop
    refine ⟨createRopeFromMap (concatenateTwoMaps
      (concatenateTwoMaps l.toMap (Rope.leaf t).toMap) r2'.toMap), ?_, ?_⟩
    · simp only [insert, if_neg h0', heq, concatenateMapList_three]
    · rw [create_toString, mflat_concatenateTwoMaps, mflat_concatenateTwoMaps,
        toMap_flat, toMap_flat, toMap_flat, htake, hdrop]
      simp [Rope.toString]

/-- Witness for C2: `insert(Leaf "Hello World", "Big ", 6)` flattens to
`"Hello Big World"`. -/
theorem insert_spec_witness :
    ∃ r2,
      insert (Rope.leaf ['H','e','l','l','o',' ','W','o','r','l','d'])
        ['B','i','g',' '] 6 = some r2 ∧
      r2.toString =
        (['H','e','l','l','o',' ','W','o','r','l','d'] : List Char).take (6 : Int).toNat ++
          ['B','i','g',' '] ++
          (['H','e','l','l','o',' ','W','o','r','l','d'] : List Char).drop (6 : Int).toNat :=
  insert_spec _ _ 6 (by decide) (by decide) (by decide) (by decide)

/-- C2 counterexample: the claim as stated quantifies over *every* rope.
On the rope `Branch(Leaf "ab", ∅)` (absent right child), inserting at the
valid location 2 (= the rope's size) throws inside the split, so no result
rope exists. -/
theorem insert_spec_counterexample :
    0 ≤ (2 : Int) ∧
    (2 : Int) ≤ ((Rope.branch (some (.leaf ['a','b'])) none 2).size : Int) ∧
    insert (Rope.branch (some (.leaf ['a','b'])) none 2) ['X'] 2 = none :=
  ⟨by decide, by decide, rfl⟩

/-! ### Claim C6: split boundaries -/

/-- C6 (amended): for every rope whose branches all have both children
present and whose cached sizes are correct, splitting at a valid position
keeps characters `[0 .. position]` on the left (so the left size is
`position + 1`; at position 0 the left size is 1) and characters
`[position+1 .. end)` on the right (so at `position = size - 1` the right
side is empty). -/
theorem splitAt_boundaries (r : Rope) (position : Int)
    (hf : r.full = true) (hw : r.wellSized = true)
    (h0 : 0 ≤ position) (hlt : position < (r.size : Int)) :
    ∃ l r2, splitAt r position = some (l, r2) ∧
      l.toString = r.toString.take (position + 1).toNat ∧
      l.size = (position + 1).toNat ∧
      r2.toString = r.toString.drop (position + 1).toNat ∧
      r2.size = r.size - (position + 1).toNat ∧
      (position = (r.size : Int) - 1 → r2.size = 0) := by
  obtain ⟨l, r2, heq, htake, hdrop, -, -, -, hlsize, hrsize⟩ := splitAt_spec r position hf hw
  have hlen : r.toString.length = r.size := (wellSized_size r hw).symm
  rw [hlen] at hlsize hrsize
  have hbound : (position + 1).toNat ≤ r.size := by omega
  refine ⟨l, r2, heq, htake, ?_, hdrop, hrsize, ?_⟩
  · rw [hlsize]; omega
  · intro hend; omega

/-- Witness for C6: splitting `Leaf "xyz"` at position 0 gives a left side
of size 1 flattening to `"x"`. -/
theorem splitAt_boundaries_witness :
    ∃ l r2, splitAt (Rope.leaf ['x','y','z']) 0 = some (l, r2) ∧
      l.toString = (['x','y','z'] : List Char).take ((0 : Int) + 1).toNat ∧
      l.size = ((0 : Int) + 1).toNat ∧
      r2.toString = (['x','y','z'] : List Char).drop ((0 : Int) + 1).toNat ∧
      r2.size = (Rope.leaf ['x','y','z']).size - ((0 : Int) + 1).toNat ∧
      ((0 : Int) = ((Rope.leaf ['x','y','z']).size : Int) - 1 → r2.size = 0) :=
  splitAt_boundaries _ 0 (by decide) (by decide) (by decide) (by decide)

/-- C6 counterexample: on the rope `Branch(Leaf "c", ∅)` (absent right
child), splitting at the valid position 0 throws, so there is no left
result of size 1 at all. -/
theorem splitAt_boundaries_counterexample :
    0 ≤ (0 : Int) ∧
    (0 : Int) < ((Rope.branch (some (.leaf ['c'])) none 1).size : Int) ∧
    splitAt (Rope.branch (some (.leaf ['c'])) none 1) 0 = none :=
  ⟨by decide, by decide, rfl⟩

/-! ### Claim C10: insert past the end -/

/-- C10 (amended): for every rope whose branches all have both children
present and whose cached sizes are correct, `insert` at a location strictly
greater than the rope's size signals no error: the leaf case of the split
clamps the out-of-range substring bounds, and the result flattens to the
original text followed by the inserted text. -/
theorem insert_beyond_end (r : Rope) (t : List Char) (location : Int)
    (hf : r.full = true) (hw : r.wellSized = true)
    (hgt : (r.size : Int) < location) :
    ∃ r2, insert r t location = some r2 ∧ r2.toString = r.toString ++ t := by
  have h0' : location ≠ 0 := by
    have : (0 : Int) ≤ (r.size : Int) := Int.ofNat_nonneg _
    omega
  obtain ⟨l, r2', heq, htake, hdrop, -, -, -, -, -⟩ := splitAt_spec r (location - 1) hf hw
  have harith : location - 1 + 1 = location := by ring
  rw [harith] at htake hdrop
  have hlen : r.toString.length = r.size := (wellSized_size r hw).symm
  have hge : r.toString.length ≤ location.toNat := by omega
  rw [List.take_of_length_le hge] at htake
  rw [List.drop_of_length_le hge] at hdrop
  refine ⟨createRopeFromMap (concatenateTwoMaps
    (concatenateTwoMaps l.toMap (Rope.leaf t).toMap) r2'.toMap), ?_, ?_⟩
  · simp only [insert, if_neg h0', heq, concatenateMapList_three]
  · rw [create_toString, mflat_concatenateTwoMaps, mflat_concatenateTwoMaps,
      toMap_flat, toMap_flat, toMap_flat, htake, hdrop]
    simp [Rope.toString]

/-- Witness for C10: inserting `"X"` into `Leaf "ab"` at location 5
silently appends, flattening to `"abX"`. -/
theorem insert_beyond_end_witness :
    ∃ r2, insert (Rope.leaf ['a','b']) ['X'] 5 = some r2 ∧
      r2.toString = ['a','b'] ++ ['X'] :=
  insert_beyond_end _ _ 5 (by decide) (by decide) (by decide)

/-- C10 counterexample: the claim as stated quantifies over *every* rope.
On `Branch(Leaf "d", ∅)` (absent right child), inserting at location
2 > size throws inside the split instead of appending. -/
theorem insert_beyond_end_counterexample :
    ((Rope.branch (some (.leaf ['d'])) none 1).size : Int) < 2 ∧
    insert (Rope.branch (some (.leaf ['d'])) none 1) ['X'] 2 = none :=
  ⟨by decide, rfl⟩

/-! ### Claim C7: index validation -/

/-- C7 counterexample: no `InvalidIndex` error exists anywhere in the code.
Calling `insert` with location 5 on a rope of size 2 — out of the valid
range — signals nothing: it returns a result rope flattening to `"abX"`
(the text is appended at the end). -/
theorem invalidIndex_counterexample :
    (((Rope.leaf ['a','b']).size : Int) < 5) ∧
    (insert (Rope.leaf ['a','b']) ['X'] 5).map Rope.toString = some ['a','b','X'] :=
  ⟨by decide, rfl⟩

/-- C7 (amended): the operations perform no index validation at all.  On
every rope whose branches have both children present and whose cached sizes
are correct, `insert` and `deleteRange` return a result for *every* integer
index combination (including `start > end` and indices far out of range);
out-of-range indices are absorbed by the substring clamping in the leaf
case of the split, never reported. -/
theorem operations_never_throw (r : Rope) (t : List Char) (location start fin : Int)
    (hf : r.full = true) (hw : r.wellSized = true) :
    (insert r t location).isSome = true ∧ (deleteRange r start fin).isSome = true := by
  constructor
  · by_cases h0' : location = 0
    · subst h0'; simp [insert]
    · obtain ⟨l, r2', heq, -, -, -, -, -, -, -⟩ := splitAt_spec r (location - 1) hf hw
      simp only [insert, if_neg h0', heq, concatenateMapList_three, Option.isSome_some]
  · obtain ⟨ls, rs, heq1, -, -, -, hwRS, hfRS, -, -⟩ := splitAt_spec r (start - 1) hf hw
    obtain ⟨le, re, heq2, -, -, -, -, -, -, -⟩ :=
      splitAt_spec rs (fin - getSize ls.toMap - 1) hfRS hwRS
    simp only [deleteRange, heq1, heq2, concatenateMapList_two, Option.isSome_some]

/-- Witness for C7 (amended): on `Leaf "a"`, `insert` at location 99 and
`deleteRange` with `start = 5 > end = 2` both return results. -/
theorem operations_never_throw_witness :
    (insert (Rope.leaf ['a']) ['Z'] 99).isSome = true ∧
    (deleteRange (Rope.leaf ['a']) 5 2).isSome = true :=
  operations_never_throw _ ['Z'] 99 5 2 (by decide) (by decide)

/-! ### Claim C5: the size invariant -/

/-- C5: every rope produced by the public API — leaf construction, the
`RopeBranch` constructor (which is also how two ropes are concatenated),
`createRopeFromMap`, map concatenation, `splitAt`, `insert`, and
`deleteRange` — satisfies the size invariant: every branch's `cachedSize`
equals the sum of its children's sizes (an absent child contributing 0). -/
theorem size_invariant :
    (∀ t, (Rope.leaf t).wellSized = true) ∧
    (∀ l r, owell l = true → owell r = true → (mkBranch l r).wellSized = true) ∧
    (∀ m, (createRopeFromMap m).wellSized = true) ∧
    (∀ m1 m2, (createRopeFromMap (concatenateTwoMaps m1 m2)).wellSized = true) ∧
    (∀ r position a b, splitAt r position = some (a, b) →
        a.wellSized = true ∧ b.wellSized = true) ∧
    (∀ r t location a, insert r t location = some a → a.wellSized = true) ∧
    (∀ r s e a, deleteRange r s e = some a → a.wellSized = true) := by
  refine ⟨fun _ => rfl, ?_, create_wellSized, fun m1 m2 => create_wellSized _, ?_, ?_, ?_⟩
  · intro l r hl hr
    rw [mkBranch, Rope.wellSized, hl, hr]
    simp
  · intro r p a b h
    obtain ⟨lm, rm, ha, hb⟩ := splitAt_some_shape r p a b h
    exact ⟨ha ▸ create_wellSized lm, hb ▸ create_wellSized rm⟩
  · intro r t loc a h
    obtain ⟨m, ha⟩ := insert_some_shape r t loc a h
    exact ha ▸ create_wellSized m
  · intro r s e a h
    obtain ⟨m, ha⟩ := deleteRange_some_shape r s e a h
    exact ha ▸ create_wellSized m

/-- Witness for C5 at the branch-construction conjunct: the `RopeBranch`
constructor over two leaves records size 1 + 2 = 3. -/
theorem size_invariant_witness :
    (mkBranch (some (Rope.leaf ['a'])) (some (Rope.leaf ['b','c']))).wellSized = true :=
  size_invariant.2.1 (some (Rope.leaf ['a'])) (some (Rope.leaf ['b','c']))
    (by decide) (by decide)

/-! ### Claim C3: deleteRange is off by one -/

/-- C3 (code bug): `deleteRange` splits the right part at
`end - size(leftStartSplit) - 1` instead of `end - size(leftStartSplit)`,
so it removes only the characters `[start, end-1]` and keeps the character
at index `end`.  On the spec's own scenario
`deleteRange(Leaf "Hello Big World", 6, 9)` the result flattens to
`"Hello  World"` (with two spaces: `"Big"` was removed but the space at
index 9 was kept) instead of the required `"Hello World"`. -/
theorem deleteRange_keeps_end_index :
    (deleteRange (Rope.leaf ['H','e','l','l','o',' ','B','i','g',' ','W','o','r','l','d'])
        6 9).map Rope.toString =
      some ['H','e','l','l','o',' ',' ','W','o','r','l','d'] ∧
    (['H','e','l','l','o',' ',' ','W','o','r','l','d'] : List Char) ≠
      ['H','e','l','l','o',' ','W','o','r','l','d'] :=
  ⟨rfl, by decide⟩

/-! ### Claim C4: the split size bookkeeping -/

/-- C4 (code bug): in the case where the split boundary falls inside the
right subtree, `splitHelper` sets the rebuilt node's `size` to
`getSize(map.right)` alone, omitting the retained left child.  Splitting
`Branch(Leaf "ab", Leaf "cd")` at position 2 rebuilds the node with
recorded size 1, while the true sum of its children's sizes is 2 + 1 = 3. -/
theorem splitHelper_rightCase_size_bug :
    splitHelper (Rope.toMap (mkBranch (some (.leaf ['a','b'])) (some (.leaf ['c','d'])))) 2 =
      some (.branch (some (.leaf ['a','b'])) (some (.leaf ['c'])) 1,
        [some (.leaf ['d'])]) ∧
    getSize (MapRep.leaf ['a','b']) + getSize (MapRep.leaf ['c']) = 3 ∧
    (1 : Int) ≠ 3 :=
  ⟨rfl, rfl, by decide⟩

/-! ### Claim C8: the balance predicate -/

mutual
theorem isBalanced_iff_aux : ∀ n : Rope, n.isBalanced = true ↔ BalancedSpec n
  | .leaf t => by
      rw [Rope.isBalanced]
      exact iff_of_true rfl (BalancedSpec.leaf t)
  | .branch l r s => by
      rw [Rope.isBalanced]
      simp only [Bool.and_eq_true, decide_eq_true_eq]
      constructor
      · rintro ⟨⟨hl, hr⟩, hd⟩
        exact BalancedSpec.branch l r s ((obal_iff_balancedChild l).mp hl)
          ((obal_iff_balancedChild r).mp hr) hd
      · intro h
        cases h with
        | branch _ _ _ hl hr hd =>
            exact ⟨⟨(obal_iff_balancedChild l).mpr hl, (obal_iff_balancedChild r).mpr hr⟩, hd⟩
theorem obal_iff_balancedChild : ∀ o : Option Rope, obal o = true ↔ BalancedChild o
  | none => by
      rw [obal]
      exact iff_of_true rfl BalancedChild.none
  | some x => by
      rw [obal]
      constructor
      · exact fun h => BalancedChild.some x ((isBalanced_iff_aux x).mp h)
      · intro h
        cases h with
        | some _ hb => exact (isBalanced_iff_aux x).mpr hb
end

/-- C8: `isBalanced` returns true exactly on the nodes satisfying the
spec's balance property: a node is balanced iff it is a Leaf, or it is a
Branch whose children are both balanced (an absent child counting as
balanced) and whose children's heights (an absent child contributing
height 0) differ by strictly less than 2. -/
theorem isBalanced_iff_balancedSpec (n : Rope) : n.isBalanced = true ↔ BalancedSpec n :=
  isBalanced_iff_aux n

/-! ### Claim C9: the two split revisions agree observationally -/

theorem relM_refl (m : MapRep) : RelM m m := ⟨rfl, rfl⟩

theorem relO_refl : ∀ x : Option MapRep, RelO x x
  | none => trivial
  | some a => relM_refl a

theorem forall2_relO_refl (l : List (Option MapRep)) : List.Forall₂ RelO l l :=
  List.forall₂_same.mpr (fun x _ => relO_refl x)

/-- The two `splitHelper` revisions throw on exactly the same inputs and
otherwise return left maps with the same flattened text and the same
`getSize`, together with pointwise-agreeing fragment lists. -/
theorem splitHelper_obs : ∀ (m : MapRep) (pos : Int),
    RelSplit (splitHelperLib m pos) (splitHelper m pos)
  | .leaf t, pos => by
      simp only [splitHelperLib, splitHelper]
      refine ⟨⟨?_, ?_⟩, forall2_relO_refl _⟩
      · simp [mflat, oflat]
      · simp [getSize, mflat]
  | .branch none r s, pos => by
      simp only [splitHelperLib, splitHelper]
      exact trivial
  | .branch (some a) none s, pos => by
      simp only [splitHelperLib, splitHelper]
      by_cases hA : getSize a = pos + 1
      · rw [if_pos hA, if_pos hA]
        exact trivial
      · rw [if_neg hA, if_neg hA]
        by_cases hB : getSize a > pos + 1
        · rw [if_pos hB, if_pos hB]
          have ih := splitHelper_obs a pos
          revert ih
          cases splitHelperLib a pos with
          | none =>
            cases splitHelper a pos with
            | none => exact fun _ => trivial
            | some v2 =>
              obtain ⟨m2, l2⟩ := v2
              exact fun ih => ih.elim
          | some v1 =>
            obtain ⟨m1, l1⟩ := v1
            cases splitHelper a pos with
            | none => exact fun ih => ih.elim
            | some v2 =>
              obtain ⟨m2, l2⟩ := v2
              intro ih
              refine ⟨⟨?_, ?_⟩, List.rel_append ih.2 (forall2_relO_refl [none])⟩
              · simp only [mflat, oflat]
                rw [ih.1.1]
              · simp only [getSize]
                exact ih.1.2
        · rw [if_neg hB, if_neg hB]
          exact trivial
  | .branch (some a) (some b) s, pos => by
      simp only [splitHelperLib, splitHelper]
      by_cases hA : getSize a = pos + 1
      · rw [if_pos hA, if_pos hA]
        exact ⟨relM_refl _, forall2_relO_refl _⟩
      · rw [if_neg hA, if_neg hA]
        by_cases hB : getSize a > pos + 1
        · rw [if_pos hB, if_pos hB]
          have ih := splitHelper_obs a pos
          revert ih
          cases splitHelperLib a pos with
          | none =>
            cases splitHelper a pos with
            | none => exact fun _ => trivial
            | some v2 =>
              obtain ⟨m2, l2⟩ := v2
              exact fun ih => ih.elim
          | some v1 =>
            obtain ⟨m1, l1⟩ := v1
            cases splitHelper a pos with
            | none => exact fun ih => ih.elim
            | some v2 =>
              obtain ⟨m2, l2⟩ := v2
              intro ih
              refine ⟨⟨?_, ?_⟩, List.rel_append ih.2 (forall2_relO_refl [some b])⟩
              · simp only [mflat, oflat]
                rw [ih.1.1]
              · simp only [getSize]
                exact ih.1.2
        · rw [if_neg hB, if_neg hB]
          have ih := splitHelper_obs b (pos - getSize a)
          revert ih
          cases splitHelperLib b (pos - getSize a) with
          | none =>
            cases splitHelper b (pos - getSize a) with
            | none => exact fun _ => trivial
            | some v2 =>
              obtain ⟨m2, l2⟩ := v2
              exact fun ih => ih.elim
          | some v1 =>
            obtain ⟨m1, l1⟩ := v1
            cases splitHelper b (pos - getSize a) with
            | none => exact fun ih => ih.elim
            | some v2 =>
              obtain ⟨m2, l2⟩ := v2
              intro ih
              refine ⟨⟨?_, ?_⟩, ih.2⟩
              · simp only [mflat, oflat]
                rw [ih.1.1]
              · simp only [getSize]
                exact ih.1.2

/-- Pointwise-agreeing fragment lists concatenate to agreeing results. -/
theorem concatenateLoop_obs : ∀ (l1 l2 : List (Option MapRep)) (a1 a2 : Option MapRep),
    RelO a1 a2 → List.Forall₂ RelO l1 l2 →
    RelConc (concatenateLoop a1 l1) (concatenateLoop a2 l2)
  | [], [], a1, a2 => fun hr _ => by
      cases a1 with
      | none =>
        cases a2 with
        | none => exact trivial
        | some y => exact hr.elim
      | some x =>
        cases a2 with
        | none => exact hr.elim
        | some y => exact hr
  | x1 :: r1, x2 :: r2, a1, a2 => fun hr hf => by
      have hx : RelO x1 x2 := by cases hf with | cons h _ => exact h
      have hrest : List.Forall₂ RelO r1 r2 := by cases hf with | cons _ h => exact h
      cases a1 with
      | none =>
        cases a2 with
        | none =>
          cases x1 <;> cases x2 <;> exact trivial
        | some y => exact hr.elim
      | some x =>
        cases a2 with
        | none => exact hr.elim
        | some y =>
          cases x1 with
          | none =>
            cases x2 with
            | none => exact trivial
            | some b2 => exact hx.elim
          | some b1 =>
            cases x2 with
            | none => exact hx.elim
            | some b2 =>
              refine concatenateLoop_obs r1 r2 _ _ ?_ hrest
              refine ⟨?_, ?_⟩
              · show mflat x ++ mflat b1 = mflat y ++ mflat b2
                rw [hr.1, hx.1]
              · show getSize x + getSize b1 = getSize y + getSize b2
                rw [hr.2, hx.2]
  | [], _ :: _, _, _ => fun _ hf => nomatch hf
  | _ :: _, [], _, _ => fun _ hf => nomatch hf

theorem concatenateMapList_obs : ∀ l1 l2 : List (Option MapRep),
    List.Forall₂ RelO l1 l2 →
    RelConc (concatenateMapList l1) (concatenateMapList l2)
  | [], [] => fun _ => trivial
  | x1 :: r1, x2 :: r2 => fun hf => by
      cases hf with
      | cons hx hr => exact concatenateLoop_obs r1 r2 x1 x2 hx hr
  | [], _ :: _ => fun hf => nomatch hf
  | _ :: _, [] => fun hf => nomatch hf

/-- C9: on every rope and every valid position, the `src/lib/rope.ts` and
`src/unnamed/part_000` revisions of `splitAt` are observationally
equivalent: either both throw, or both return pairs whose left results have
identical flattened text and identical size, and likewise for the right
results. -/
theorem splitAt_revisions_equiv (r : Rope) (position : Int)
    (h0 : 0 ≤ position) (hlt : position < (r.size : Int)) :
    (splitAtLib r position = none ∧ splitAt r position = none) ∨
    (∃ a b c d, splitAtLib r position = some (a, b) ∧ splitAt r position = some (c, d) ∧
      a.toString = c.toString ∧ a.size = c.size ∧
      b.toString = d.toString ∧ b.size = d.size) := by
  have hobs := splitHelper_obs r.toMap position
  cases h1 : splitHelperLib r.toMap position with
  | none =>
    cases h2 : splitHelper r.toMap position with
    | none =>
      left
      constructor
      · simp only [splitAtLib, h1]
      · simp only [splitAt, h2]
    | some v2 =>
      rw [h1, h2] at hobs
      obtain ⟨m2, l2⟩ := v2
      exact hobs.elim
  | some v1 =>
    obtain ⟨m1, l1⟩ := v1
    cases h2 : splitHelper r.toMap position with
    | none =>
      rw [h1, h2] at hobs
      exact hobs.elim
    | some v2 =>
      obtain ⟨m2, l2⟩ := v2
      rw [h1, h2] at hobs
      obtain ⟨hm, hl⟩ := hobs
      have hc := concatenateMapList_obs l1 l2 hl
      cases hc1 : concatenateMapList l1 with
      | none =>
        cases hc2 : concatenateMapList l2 with
        | none =>
          left
          constructor
          · simp only [splitAtLib, h1, hc1]
          · simp only [splitAt, h2, hc2]
        | some o2 =>
          rw [hc1, hc2] at hc
          cases o2 with
          | none => exact hc.elim
          | some rm2 => exact hc.elim
      | some o1 =>
        cases o1 with
        | none =>
          cases hc2 : concatenateMapList l2 with
          | none => rw [hc1, hc2] at hc; exact hc.elim
          | some o2 =>
            cases o2 with
            | none =>
              left
              constructor
              · simp only [splitAtLib, h1, hc1]
              · simp only [splitAt, h2, hc2]
            | some rm2 => rw [hc1, hc2] at hc; exact hc.elim
        | some rm1 =>
          cases hc2 : concatenateMapList l2 with
          | none => rw [hc1, hc2] at hc; exact hc.elim
          | some o2 =>
            cases o2 with
            | none => rw [hc1, hc2] at hc; exact hc.elim
            | some rm2 =>
              rw [hc1, hc2] at hc
              right
              refine ⟨createRopeFromMap m1, createRopeFromMap rm1,
                createRopeFromMap m2, createRopeFromMap rm2, ?_, ?_, ?_, ?_, ?_, ?_⟩
              · simp only [splitAtLib, h1, hc1]
              · simp only [splitAt, h2, hc2]
              · rw [create_toString, create_toString, hm.1]
              · rw [create_size, create_size, hm.1]
              · rw [create_toString, create_toString, hc.1]
              · rw [create_size, create_size, hc.1]

/-- Witness for C9 at `Leaf "a"`, position 0. -/
theorem splitAt_revisions_equiv_witness :
    (splitAtLib (Rope.leaf ['a']) 0 = none ∧ splitAt (Rope.leaf ['a']) 0 = none) ∨
    (∃ a b c d, splitAtLib (Rope.leaf ['a']) 0 = some (a, b) ∧
      splitAt (Rope.leaf ['a']) 0 = some (c, d) ∧
      a.toString = c.toString ∧ a.size = c.size ∧
      b.toString = d.toString ∧ b.size = d.size) :=
  splitAt_revisions_equiv (Rope.leaf ['a']) 0 (by decide) (by decide)

end RopeModel
